import Mathlib

/-!
# Verification of the OpenAPI document assembler (`swagger-spec-generator.js`)

A shallow embedding of `createSwaggerObject` and `generateSwaggerObjectBase`
from `src/lib/specgen/swagger-spec-generator.js`, together with models (taken
from the specification) of the external collaborators the assembler calls:
the route mapper (`route-helper`), the model mapper (`model-helper`) with its
schema registry (`type-registry`), the tag builder (`tag-builder`) and the
text converter (`type-converter`).

JavaScript objects used as string-keyed maps are embedded as association
lists whose insert operation keeps an existing key at its original position
and appends new keys at the end, mirroring JavaScript own-property order.
A thrown exception is embedded as `Option.none` for the whole assembly run,
and the `g.error` diagnostics channel as an accumulated list of strings.
-/

namespace LoopbackSwagger

/-! ## JavaScript-object maps -/

def jsGet {α : Type} : List (String × α) → String → Option α
  | [], _ => none
  | (k, v) :: t, key => if k = key then some v else jsGet t key

def jsSet {α : Type} : List (String × α) → String → α → List (String × α)
  | [], key, v => [(key, v)]
  | (k, w) :: t, key, v =>
    if k = key then (key, v) :: t else (k, w) :: jsSet t key v

/-- JavaScript truthiness of a possibly-missing string: `undefined` and the
empty string are falsy. -/
def jsTruthy : Option String → Option String
  | some s => if s = "" then none else some s
  | none => none

/-- `pkg[name] || defaultValue` over an already-resolved package property
(`getPackagePropertyOrDefault` in the source; the `require` of `package.json`
is an external input, embedded as an `Option String`). -/
def getPackagePropertyOrDefault (v : Option String) (defaultValue : String) : String :=
  match jsTruthy v with
  | some s => s
  | none => defaultValue

/-! ## Input data model -/

structure Route where
  method : String
  verb : String
  path : String
  documented : Bool
  deriving DecidableEq, Repr

structure MethodDesc where
  name : String
  documented : Bool
  deriving DecidableEq, Repr

structure ClassDesc where
  name : String
  description : String
  methods : List MethodDesc
  swaggerMethods : Option (List String)
  deriving DecidableEq, Repr

structure ModelDesc where
  name : String
  definition : String
  deriving DecidableEq, Repr

structure Operation where
  operationId : String
  tags : List String
  deriving DecidableEq, Repr

structure Tag where
  name : String
  description : String
  deriving DecidableEq, Repr

structure SecScheme where
  type_ : String
  in_ : String
  name : String
  deriving DecidableEq, Repr

/-- The three states a caller-supplied `securitySchemes` option can be in:
not supplied (so `_.defaults` fills the built-in pair), supplied but null
(stays null, which is falsy), or supplied as a scheme map. -/
inductive SchemesOpt where
  | unset
  | nullv
  | given (schemes : List (String × SecScheme))
  deriving DecidableEq, Repr

structure Opts where
  basePath : Option String
  consumes : Option (List String)
  produces : Option (List String)
  securitySchemes : SchemesOpt
  version : Option String
  apiInfo : Option (List (String × String))
  host : Option String
  deriving DecidableEq, Repr

/-- The introspection snapshot the assembler reads from the application:
routes, remoting classes, the model catalog, the `swagger` app setting
(the document-level extension object), `restApiRoot`, and the
already-resolved `package.json` properties. -/
structure AppInput where
  restApiRoot : Option String
  swaggerExtensions : List (String × String)
  pkgName : Option String
  pkgDescription : Option String
  pkgVersion : Option String
  routes : List Route
  classes : List ClassDesc
  models : List ModelDesc
  deriving DecidableEq, Repr

/-! ## Output data model -/

/-- The document's top-level `security` field is either derived from the
configured schemes, or (only when `securitySchemes` is null, leaving the slot
undefined) filled from a `security` key of the extension object, or absent. -/
inductive SecurityField where
  | fromSchemes (reqs : List (String × List String))
  | fromExtension (value : String)
  | absent
  deriving DecidableEq, Repr

structure SwaggerDoc where
  openapi : String
  info : List (String × String)
  servers : List String
  paths : List (String × List (String × Option Operation))
  tags : List Tag
  schemas : List (String × String)
  securitySchemes : Option (List (String × SecScheme))
  security : SecurityField
  host : Option String
  extra : List (String × String)
  deriving DecidableEq, Repr

/-! ## Option defaulting (`_.defaults(opts, {...})`, lines 30-52) -/

structure ResolvedOpts where
  basePath : String
  consumes : List String
  produces : List String
  securitySchemes : SchemesOpt
  version : String
  apiInfo : Option (List (String × String))
  host : Option String
  deriving DecidableEq, Repr

def defaultSecuritySchemes : List (String × SecScheme) :=
  [("accessToken", { type_ := "apiKey", in_ := "header", name := "authorization" }),
   ("accessTokenParam", { type_ := "apiKey", in_ := "query", name := "access_token" })]

def applyDefaults (app : AppInput) (opts : Opts) : ResolvedOpts :=
  { basePath := opts.basePath.getD (getPackagePropertyOrDefault app.restApiRoot "/api"),
    consumes := opts.consumes.getD ["application/json"],
    produces := opts.produces.getD ["application/json"],
    securitySchemes :=
      match opts.securitySchemes with
      | .unset => .given defaultSecuritySchemes
      | x => x,
    version := opts.version.getD (getPackagePropertyOrDefault app.pkgVersion "1.0.0"),
    apiInfo := opts.apiInfo,
    host := opts.host }

/-! ## Text conversion -/

/-- Modelled from the spec: `type-converter.convertText` normalizes localizable
text fragments into document-safe string values; on the plain strings of this
embedding it is the identity. -/
def convertText (s : String) : String := s

/-! ## Base document (`generateSwaggerObjectBase`, lines 154-204) -/

/-- The keys the `_.defaults({...}, swaggerSpecExtensions, {host: opts.host})`
merge never takes from the extension object into the anonymous remainder:
the seven core fields (always own keys of the first argument; `security` is
special-cased in `SecurityField`) and `host` (tracked in its own field). -/
def swaggerBaseKeys : List String :=
  ["openapi", "info", "servers", "paths", "tags", "components", "security", "host"]

def generateSwaggerObjectBase (opts : ResolvedOpts) (app : AppInput) : SwaggerDoc :=
  let ext := app.swaggerExtensions
  let apiInfo0 := (opts.apiInfo.getD []).map (fun p => (p.1, convertText p.2))
  let apiInfo1 := jsSet apiInfo0 "version"
    ((jsTruthy (jsGet apiInfo0 "version")).getD opts.version)
  let apiInfo2 :=
    match jsTruthy (jsGet apiInfo1 "title") with
    | some _ => apiInfo1
    | none => jsSet apiInfo1 "title" (getPackagePropertyOrDefault app.pkgName "LoopBack Application")
  let apiInfo3 :=
    match jsTruthy (jsGet apiInfo2 "description") with
    | some _ => apiInfo2
    | none => jsSet apiInfo2 "description"
        (getPackagePropertyOrDefault app.pkgDescription "LoopBack Application")
  let basePath :=
    if opts.basePath != "" && opts.basePath.toList.getLastD ' ' == '/'
    then String.mk opts.basePath.toList.dropLast else opts.basePath
  { openapi := "3.0.1",
    info := apiInfo3,
    servers := [basePath],
    paths := [],
    tags := [],
    schemas := [],
    securitySchemes :=
      match opts.securitySchemes with
      | .given l => some l
      | _ => none,
    security :=
      match opts.securitySchemes with
      | .given l => .fromSchemes (l.map (fun p => (p.1, ([] : List String))))
      | _ =>
        match jsGet ext "security" with
        | some v => .fromExtension v
        | none => .absent,
    host :=
      match jsGet ext "host" with
      | some h => some h
      | none => opts.host,
    extra := ext.filter (fun p => !(swaggerBaseKeys.contains p.1)) }

/-! ## Schema registry (model registration, lines 63-71) -/

/-- Modelled from the spec: the schema registry's collision policy — when the
canonical name is taken by a different definition, allocate a fresh name by
deterministic numeric suffixing. Recursion is bounded by fuel that always
suffices (there are more candidate names than registered entries). -/
def allocateSchemaName (reg : List (String × String)) (base definition : String) :
    Nat → Nat → List (String × String)
  | _, 0 => reg
  | n, fuel + 1 =>
    match jsGet reg (base ++ toString n) with
    | none => reg ++ [(base ++ toString n, definition)]
    | some d =>
      if d = definition then reg
      else allocateSchemaName reg base definition (n + 1) fuel

/-- Modelled from the spec: `model-helper.registerModelDefinition` registers a
model with the schema registry under its declared name; registration of an
identical definition is idempotent, and a name taken by a different definition
is resolved by allocating a distinct suffixed name rather than overwriting. -/
def registerModelDefinition (reg : List (String × String)) (m : ModelDesc) :
    List (String × String) :=
  match jsGet reg m.name with
  | none => reg ++ [(m.name, m.definition)]
  | some d =>
    if d = m.definition then reg
    else allocateSchemaName reg m.name m.definition 2 (reg.length + 1)

def registerModels (models : List ModelDesc) : List (String × String) :=
  models.foldl registerModelDefinition []

/-! ## Tag candidates (lines 76-87) -/

/-- Modelled from the spec: `tag-builder.buildTagFromClass` derives a Tag
one-to-one from a class descriptor (its name plus descriptive metadata). -/
def buildTagFromClass (c : ClassDesc) : Tag :=
  { name := c.name, description := c.description }

def tagCandidates (classes : List ClassDesc) : List Tag :=
  (classes.filter (fun c =>
    c.name != "" && c.methods.any (fun m => m.documented))).map buildTagFromClass

/-! ## Route processing (lines 89-116) -/

/-- The regex destructuring of line 95, `/^([^.]+)\.(.*)$/.exec(route.method)`:
a non-empty dot-free head, a literal dot, and a remainder that `.*` must match
(so it may not contain a newline; `$` is end-of-input). `none` is the `null`
match result whose dereference throws. -/
def parseClassMethod (s : String) : Option (String × String) :=
  let cs := s.toList
  let pre := cs.takeWhile (fun c => c != '.')
  match cs.dropWhile (fun c => c != '.') with
  | [] => none
  | _ :: rest =>
    if pre.isEmpty then none
    else if rest.contains '\n' then none
    else some (String.mk pre, String.mk rest)

/-- Whether `pat` occurs at the start of `cs`. -/
def headMatches : List Char → List Char → Bool
  | _, [] => true
  | [], _ :: _ => false
  | c :: t, p :: ps => c == p && headMatches t ps

/-- Remove the first occurrence of `pat` from `cs`
(JavaScript `String.replace` with a string pattern and empty replacement). -/
def removeFirstList (pat : List Char) : List Char → List Char
  | [] => []
  | c :: t =>
    if headMatches (c :: t) pat then (c :: t).drop pat.length
    else c :: removeFirstList pat t

/-- Line 96: `methodName.replace('prototype.', '')`. -/
def stripPrototypeMarker (s : String) : String :=
  String.mk (removeFirstList "prototype.".toList s.toList)

/-- Lines 95-96 combined: split the compound method identifier into the owning
class name and the method name with the instance-method marker stripped. -/
def resolveClassMethod (s : String) : Option (String × String) :=
  (parseClassMethod s).map (fun p => (p.1, stripPrototypeMarker p.2))

abbrev PathsMap := List (String × List (String × Operation))

/-- Modelled from the spec: `route-helper.addRouteToSwaggerPaths` maps one route
plus its owning class to an Operation merged into the path/method grid at the
route's path template and HTTP verb, overwriting any previous entry for the
same path+method pair; every operation carries its owning class's tag name,
and its identity is embedded as the route's compound method identifier. -/
def addRouteToSwaggerPaths (route : Route) (classDef : ClassDesc) (paths : PathsMap) :
    PathsMap :=
  let op : Operation := { operationId := route.method, tags := [classDef.name] }
  jsSet paths route.path (jsSet ((jsGet paths route.path).getD []) route.verb op)

/-- Line 103: `g.error('Route exists with no class: %j', route)`. -/
def orphanDiag (route : Route) : String :=
  "Route exists with no class: " ++ route.verb ++ " " ++ route.path ++ " " ++ route.method

structure RouteState where
  paths : PathsMap
  diags : List String
  deriving DecidableEq, Repr

/-- The body of the `routes.forEach` loop, lines 91-116. -/
def processRoute (classes : List ClassDesc) (st : RouteState) (route : Route) :
    Option RouteState :=
  if !route.documented then some st
  else
    match resolveClassMethod route.method with
    | none => none
    | some (className, methodName) =>
      match classes.find? (fun c => c.name == className) with
      | none => some { st with diags := st.diags ++ [orphanDiag route] }
      | some classDef =>
        match classDef.swaggerMethods with
        | some allowed =>
          if allowed.contains methodName
          then some { st with paths := addRouteToSwaggerPaths route classDef st.paths }
          else some st
        | none => some { st with paths := addRouteToSwaggerPaths route classDef st.paths }

/-- The `routes.forEach` loop itself; an exception aborts the whole run. -/
def routesFold (classes : List ClassDesc) : List Route → RouteState → Option RouteState
  | [], st => some st
  | r :: rs, st =>
    match processRoute classes st r with
    | none => none
    | some st' => routesFold classes rs st'

/-! ## Finalization (lines 118-145) -/

/-- Lexicographic comparison on character lists (the comparison behind
JavaScript's default `Array.prototype.sort` over string keys), written so that
it evaluates by kernel reduction. It agrees with `String` order, see
`keyLe_iff_le`. -/
def charsLe : List Char → List Char → Bool
  | [], _ => true
  | _ :: _, [] => false
  | a :: as, b :: bs =>
    if a < b then true
    else if b < a then false
    else charsLe as bs

def keyLe (a b : String) : Bool :=
  charsLe a.toList b.toList

def sortStrings (l : List String) : List String :=
  List.insertionSort (fun a b => keyLe a b = true) l

/-- Lines 119-122: copy schemas in sorted key order. -/
def sortedSchemaPairs (reg : List (String × String)) : List (String × String) :=
  (sortStrings (reg.map Prod.fst)).map (fun k => (k, (jsGet reg k).getD ""))

def httpMethods : List String :=
  ["get", "post", "put", "patch", "delete", "head", "options"]

/-- Lines 128-138: one path item, a slot per HTTP method; a slot with no
matching operation is assigned the (JSON-invisible) undefined value. -/
def buildPathItem (paths : PathsMap) (key : String) : List (String × Option Operation) :=
  httpMethods.map (fun m => (m, jsGet ((jsGet paths key).getD []) m))

def assembledPaths (paths : PathsMap) : List (String × List (String × Option Operation)) :=
  (sortStrings (paths.map Prod.fst)).map (fun k => (k, buildPathItem paths k))

/-- `usedTags[tag] = true` over a tags list (object keys: dedup, keep first). -/
def addTags : List String → List String → List String
  | [], acc => acc
  | n :: t, acc => addTags t (if acc.contains n then acc else acc ++ [n])

def collectItemTags : List (String × Option Operation) → List String → List String
  | [], acc => acc
  | (_, none) :: t, acc => collectItemTags t acc
  | (_, some op) :: t, acc => collectItemTags t (addTags op.tags acc)

def usedTagNamesAux : List (String × List (String × Option Operation)) → List String → List String
  | [], acc => acc
  | (_, item) :: t, acc => usedTagNamesAux t (collectItemTags item acc)

/-- The set of tag names referenced by some populated method slot
(`usedTags`, lines 126-138). -/
def usedTagNames (docPaths : List (String × List (String × Option Operation))) : List String :=
  usedTagNamesAux docPaths []

/-- Line 142's sort, `(a, b) => a.name > b.name ? 1 : -1`. -/
def sortTags (l : List Tag) : List Tag :=
  List.insertionSort (fun a b => keyLe a.name b.name = true) l

/-! ## The assembler (`createSwaggerObject`, lines 29-146) -/

/-- Lines 118-143: the final document built from the base skeleton, the filled
path/method grid, the sorted schemas and the pruned, sorted tag list. -/
def finalizeSwaggerObject (app : AppInput) (opts0 : Opts) (st : RouteState) : SwaggerDoc :=
  let base := generateSwaggerObjectBase (applyDefaults app opts0) app
  let docPaths := assembledPaths st.paths
  let used := usedTagNames docPaths
  let finalTags := sortTags ((tagCandidates app.classes).filter (fun t => used.contains t.name))
  { base with
      paths := docPaths,
      schemas := sortedSchemaPairs (registerModels app.models),
      tags := finalTags }

def createSwaggerObject (app : AppInput) (opts0 : Opts) : Option (SwaggerDoc × List String) :=
  match routesFold app.classes app.routes ⟨[], []⟩ with
  | none => none
  | some st => some (finalizeSwaggerObject app opts0 st, st.diags)

/-! ## Lemmas on JavaScript-object maps -/

theorem jsGet_jsSet {α : Type} (l : List (String × α)) (k : String) (v : α) (k' : String) :
    jsGet (jsSet l k v) k' = if k = k' then some v else jsGet l k' := by
  induction l with
  | nil => by_cases h : k = k' <;> simp [jsSet, jsGet, h]
  | cons hd t ih =>
    obtain ⟨k0, v0⟩ := hd
    by_cases h0 : k0 = k
    · by_cases h1 : k = k' <;> simp [jsSet, jsGet, h0, h1]
    · by_cases h1 : k0 = k' <;> by_cases h2 : k = k' <;>
        simp_all [jsSet, jsGet]

theorem mem_keys_jsSet {α : Type} (l : List (String × α)) (k : String) (v : α) (a : String) :
    a ∈ (jsSet l k v).map Prod.fst ↔ a = k ∨ a ∈ l.map Prod.fst := by
  induction l with
  | nil => simp [jsSet]
  | cons hd t ih =>
    obtain ⟨k0, v0⟩ := hd
    by_cases h0 : k0 = k
    · subst h0; simp [jsSet]
    · simp only [jsSet, if_neg h0, List.map_cons, List.mem_cons, ih]
      tauto

theorem nodup_keys_jsSet {α : Type} (l : List (String × α)) (k : String) (v : α)
    (h : (l.map Prod.fst).Nodup) : ((jsSet l k v).map Prod.fst).Nodup := by
  induction l with
  | nil => simp [jsSet]
  | cons hd t ih =>
    obtain ⟨k0, v0⟩ := hd
    simp only [List.map_cons, List.nodup_cons] at h
    by_cases h0 : k0 = k
    · subst h0
      simpa [jsSet] using h
    · simp only [jsSet, if_neg h0, List.map_cons, List.nodup_cons]
      refine ⟨?_, ih h.2⟩
      rw [mem_keys_jsSet]
      rintro (rfl | hmem)
      · exact h0 rfl
      · exact h.1 hmem

theorem jsGet_eq_none_iff {α : Type} (l : List (String × α)) (k : String) :
    jsGet l k = none ↔ k ∉ l.map Prod.fst := by
  induction l with
  | nil => simp [jsGet]
  | cons hd t ih =>
    obtain ⟨k0, v0⟩ := hd
    by_cases h0 : k0 = k
    · subst h0; simp [jsGet]
    · simp only [jsGet, if_neg h0, ih, List.map_cons, List.mem_cons]
      constructor
      · intro hk h'
        rcases h' with rfl | hmem
        · exact h0 rfl
        · exact hk hmem
      · intro hk hmem
        exact hk (Or.inr hmem)

theorem mem_of_jsGet_eq_some {α : Type} (l : List (String × α)) (k : String) (v : α)
    (h : jsGet l k = some v) : (k, v) ∈ l := by
  induction l with
  | nil => simp [jsGet] at h
  | cons hd t ih =>
    obtain ⟨k0, v0⟩ := hd
    by_cases h0 : k0 = k
    · subst h0; simp [jsGet] at h; simp [h]
    · simp only [jsGet, if_neg h0] at h
      exact List.mem_cons_of_mem _ (ih h)

theorem jsGet_eq_some_of_mem {α : Type} (l : List (String × α)) (k : String) (v : α)
    (hmem : (k, v) ∈ l) (hnd : (l.map Prod.fst).Nodup) : jsGet l k = some v := by
  induction l with
  | nil => simp at hmem
  | cons hd t ih =>
    obtain ⟨k0, v0⟩ := hd
    simp only [List.map_cons, List.nodup_cons] at hnd
    rcases List.mem_cons.mp hmem with heq | hmem'
    · obtain ⟨h1, h2⟩ := Prod.mk.injEq .. ▸ heq
      simp [jsGet, h1.symm, h2]
    · by_cases h0 : k0 = k
      · subst h0
        exact absurd (List.mem_map_of_mem Prod.fst hmem') hnd.1
      · simpa [jsGet, h0] using ih hmem' hnd.2

/-! ## Lemmas on sorting -/

theorem charsLe_iff_lex (as bs : List Char) :
    charsLe as bs = true ↔ (List.Lex (· < ·) as bs ∨ as = bs) := by
  induction as generalizing bs with
  | nil =>
    cases bs with
    | nil => simp [charsLe]
    | cons b t => simp [charsLe]; exact List.Lex.nil
  | cons a as ih =>
    cases bs with
    | nil =>
      simp only [charsLe, false_iff, not_or]
      refine ⟨fun h => ?_, by simp⟩
      cases h
    | cons b bs =>
      by_cases hab : a < b
      · simp only [charsLe, if_pos hab, true_iff]
        exact Or.inl (List.Lex.rel hab)
      · by_cases hba : b < a
        · simp only [charsLe, if_neg hab, if_pos hba]
          constructor
          · intro h; simp at h
          · rintro (h | h)
            · cases h with
              | rel h' => exact ((lt_asymm h') hba).elim
              | cons h' => exact (lt_irrefl a hba).elim
            · cases h
              exact (lt_irrefl a hba).elim
        · have heq : a = b := le_antisymm (not_lt.mp hba) (not_lt.mp hab)
          subst heq
          simp only [charsLe, if_neg hab, ih bs, List.cons.injEq, true_and]
          constructor
          · rintro (h | rfl)
            · exact Or.inl (List.Lex.cons h)
            · exact Or.inr rfl
          · rintro (h | rfl)
            · cases h with
              | rel h' => exact absurd h' (lt_irrefl a)
              | cons h' => exact Or.inl h'
            · exact Or.inr rfl

theorem charsLe_iff_le (as bs : List Char) : charsLe as bs = true ↔ as ≤ bs := by
  rw [charsLe_iff_lex, le_iff_lt_or_eq]
  exact Iff.rfl

theorem keyLe_iff_le (a b : String) : keyLe a b = true ↔ a ≤ b := by
  rw [keyLe, charsLe_iff_le]
  exact String.le_iff_toList_le.symm

instance : IsTotal String (fun a b => keyLe a b = true) :=
  ⟨fun a b => by
    rcases le_total a b with h | h
    · exact Or.inl ((keyLe_iff_le a b).mpr h)
    · exact Or.inr ((keyLe_iff_le b a).mpr h)⟩

instance : IsTrans String (fun a b => keyLe a b = true) :=
  ⟨fun a b c hab hbc => (keyLe_iff_le a c).mpr
    (le_trans ((keyLe_iff_le a b).mp hab) ((keyLe_iff_le b c).mp hbc))⟩

instance : IsAntisymm String (fun a b => keyLe a b = true) :=
  ⟨fun a b hab hba => le_antisymm ((keyLe_iff_le a b).mp hab) ((keyLe_iff_le b a).mp hba)⟩

instance : IsTotal Tag (fun a b => keyLe a.name b.name = true) :=
  ⟨fun a b => total_of (fun x y : String => keyLe x y = true) a.name b.name⟩

instance : IsTrans Tag (fun a b => keyLe a.name b.name = true) :=
  ⟨fun _ _ _ hab hbc => trans_of (fun x y : String => keyLe x y = true) hab hbc⟩

theorem sortStrings_sorted (l : List String) :
    List.Sorted (fun a b => keyLe a b = true) (sortStrings l) :=
  List.sorted_insertionSort _ l

theorem sortStrings_sorted_le (l : List String) :
    List.Pairwise (· ≤ ·) (sortStrings l) :=
  (sortStrings_sorted l).imp (fun hab => (keyLe_iff_le _ _).mp hab)

theorem sortStrings_perm (l : List String) : (sortStrings l).Perm l :=
  List.perm_insertionSort _ l

theorem sortStrings_pairwise_lt (l : List String) (h : l.Nodup) :
    List.Pairwise (· < ·) (sortStrings l) := by
  have hs : List.Pairwise (· ≤ ·) (sortStrings l) := sortStrings_sorted_le l
  have hn : (sortStrings l).Nodup := ((sortStrings_perm l).nodup_iff).mpr h
  exact (hs.and hn).imp (fun hab => lt_of_le_of_ne hab.1 hab.2)

theorem sortStrings_eq_of_perm (l l' : List String) (h : l.Perm l') :
    sortStrings l = sortStrings l' :=
  List.eq_of_perm_of_sorted ((sortStrings_perm l).trans (h.trans (sortStrings_perm l').symm))
    (sortStrings_sorted l) (sortStrings_sorted l')

/-! ## Shape of a successful assembly run -/

theorem createSwaggerObject_eq_some_iff (app : AppInput) (opts0 : Opts)
    (d : SwaggerDoc) (diags : List String) :
    createSwaggerObject app opts0 = some (d, diags) ↔
      ∃ st, routesFold app.classes app.routes ⟨[], []⟩ = some st ∧
        d = finalizeSwaggerObject app opts0 st ∧ diags = st.diags := by
  unfold createSwaggerObject
  cases hfold : routesFold app.classes app.routes ⟨[], []⟩ with
  | none => simp
  | some st =>
    simp only [Option.some.injEq, Prod.mk.injEq]
    constructor
    · rintro ⟨h1, h2⟩
      exact ⟨st, rfl, h1.symm, h2.symm⟩
    · rintro ⟨st', hst', h1, h2⟩
      cases hst'
      exact ⟨h1.symm, h2.symm⟩

/-! ## Key uniqueness through the route fold -/

theorem processRoute_paths_nodup (classes : List ClassDesc) (st : RouteState) (r : Route)
    (st' : RouteState) (h : processRoute classes st r = some st')
    (hn : (st.paths.map Prod.fst).Nodup) : (st'.paths.map Prod.fst).Nodup := by
  unfold processRoute at h
  split at h
  · cases h; exact hn
  · split at h
    · exact absurd h (by simp)
    · split at h
      · cases h; exact hn
      · split at h
        · split at h
          · cases h
            exact nodup_keys_jsSet _ _ _ hn
          · cases h; exact hn
        · cases h
          exact nodup_keys_jsSet _ _ _ hn

theorem routesFold_paths_nodup (classes : List ClassDesc) (routes : List Route)
    (st st' : RouteState) (h : routesFold classes routes st = some st')
    (hn : (st.paths.map Prod.fst).Nodup) : (st'.paths.map Prod.fst).Nodup := by
  induction routes generalizing st with
  | nil => unfold routesFold at h; cases h; exact hn
  | cons r rs ih =>
    unfold routesFold at h
    cases hp : processRoute classes st r with
    | none => rw [hp] at h; exact absurd h (by simp)
    | some st1 =>
      rw [hp] at h
      exact ih st1 h (processRoute_paths_nodup classes st r st1 hp hn)

/-! ## Key uniqueness in the schema registry -/

theorem allocateSchemaName_keys_nodup (reg : List (String × String)) (base defn : String)
    (n fuel : Nat) (hn : (reg.map Prod.fst).Nodup) :
    ((allocateSchemaName reg base defn n fuel).map Prod.fst).Nodup := by
  induction fuel generalizing n with
  | zero => exact hn
  | succ fuel ih =>
    unfold allocateSchemaName
    cases hg : jsGet reg (base ++ toString n) with
    | none =>
      show (List.map Prod.fst (reg ++ [(base ++ toString n, defn)])).Nodup
      simp only [List.map_append, List.map_cons, List.map_nil]
      rw [List.nodup_append]
      refine ⟨hn, List.nodup_singleton _, ?_⟩
      intro a ha hb
      simp only [List.mem_singleton] at hb
      subst hb
      exact ((jsGet_eq_none_iff reg _).mp hg) ha
    | some d =>
      show (List.map Prod.fst
        (if d = defn then reg else allocateSchemaName reg base defn (n + 1) fuel)).Nodup
      split
      · exact hn
      · exact ih (n + 1)

theorem registerModelDefinition_keys_nodup (reg : List (String × String)) (m : ModelDesc)
    (hn : (reg.map Prod.fst).Nodup) :
    ((registerModelDefinition reg m).map Prod.fst).Nodup := by
  unfold registerModelDefinition
  cases hg : jsGet reg m.name with
  | none =>
    show (List.map Prod.fst (reg ++ [(m.name, m.definition)])).Nodup
    simp only [List.map_append, List.map_cons, List.map_nil]
    rw [List.nodup_append]
    refine ⟨hn, List.nodup_singleton _, ?_⟩
    intro a ha hb
    simp only [List.mem_singleton] at hb
    subst hb
    exact ((jsGet_eq_none_iff reg _).mp hg) ha
  | some d =>
    show (List.map Prod.fst (if d = m.definition then reg
      else allocateSchemaName reg m.name m.definition 2 (reg.length + 1))).Nodup
    split
    · exact hn
    · exact allocateSchemaName_keys_nodup reg m.name m.definition 2 (reg.length + 1) hn

theorem registerModels_keys_nodup (models : List ModelDesc) :
    ((registerModels models).map Prod.fst).Nodup := by
  have : ∀ (ms : List ModelDesc) (reg : List (String × String)),
      (reg.map Prod.fst).Nodup → ((ms.foldl registerModelDefinition reg).map Prod.fst).Nodup := by
    intro ms
    induction ms with
    | nil => intro reg h; exact h
    | cons m t ih =>
      intro reg h
      exact ih _ (registerModelDefinition_keys_nodup reg m h)
  exact this models [] (by simp)

/-! ## Keys of the assembled document -/

theorem assembledPaths_keys (P : PathsMap) :
    (assembledPaths P).map Prod.fst = sortStrings (P.map Prod.fst) := by
  unfold assembledPaths
  rw [List.map_map]
  exact List.map_id _

theorem sortedSchemaPairs_keys (reg : List (String × String)) :
    (sortedSchemaPairs reg).map Prod.fst = sortStrings (reg.map Prod.fst) := by
  unfold sortedSchemaPairs
  rw [List.map_map]
  exact List.map_id _

/-! ## Sample fixture used by witnesses -/

def sampleOpts : Opts :=
  { basePath := none, consumes := none, produces := none,
    securitySchemes := .unset, version := none, apiInfo := none, host := none }

def sampleApp : AppInput :=
  { restApiRoot := some "/api/",
    swaggerExtensions := [("x-custom", "yes")],
    pkgName := none, pkgDescription := none, pkgVersion := none,
    routes := [
      { method := "widget.prototype.findById", verb := "get", path := "/widgets/id",
        documented := true },
      { method := "widget.find", verb := "get", path := "/widgets", documented := true },
      { method := "widget.hidden", verb := "get", path := "/w2", documented := false }],
    classes := [
      { name := "widget", description := "w", methods := [⟨"find", true⟩],
        swaggerMethods := none }],
    models := [⟨"B", "bdef"⟩, ⟨"A", "adef"⟩] }

/-- C2: for every assembly run, the keys of the returned document's `paths`
mapping are unique and in ascending lexicographic order, and the keys of
`components.schemas` are unique and in ascending lexicographic order
(strict pairwise order below expresses both at once). -/
theorem paths_and_schemas_keys_sorted_unique (app : AppInput) (opts0 : Opts)
    (d : SwaggerDoc) (diags : List String)
    (h : createSwaggerObject app opts0 = some (d, diags)) :
    List.Pairwise (· < ·) (d.paths.map Prod.fst) ∧
    List.Pairwise (· < ·) (d.schemas.map Prod.fst) := by
  obtain ⟨st, hfold, hd, -⟩ := (createSwaggerObject_eq_some_iff app opts0 d diags).mp h
  subst hd
  constructor
  · have hp : (finalizeSwaggerObject app opts0 st).paths = assembledPaths st.paths := rfl
    rw [hp, assembledPaths_keys]
    exact sortStrings_pairwise_lt _
      (routesFold_paths_nodup app.classes app.routes _ st hfold (by simp))
  · have hs : (finalizeSwaggerObject app opts0 st).schemas
        = sortedSchemaPairs (registerModels app.models) := rfl
    rw [hs, sortedSchemaPairs_keys]
    exact sortStrings_pairwise_lt _ (registerModels_keys_nodup app.models)

/-- Witness for C2 at the sample snapshot. -/
theorem paths_and_schemas_keys_sorted_unique_witness :
    ∃ d diags, createSwaggerObject sampleApp sampleOpts = some (d, diags) ∧
      List.Pairwise (· < ·) (d.paths.map Prod.fst) ∧
      List.Pairwise (· < ·) (d.schemas.map Prod.fst) := by
  cases hrun : createSwaggerObject sampleApp sampleOpts with
  | none => exact absurd hrun (by decide)
  | some p =>
    obtain ⟨d, diags⟩ := p
    exact ⟨d, diags, rfl,
      paths_and_schemas_keys_sorted_unique sampleApp sampleOpts d diags hrun⟩

/-! ## Tracing populated method slots back to routes -/

theorem jsGet_addRouteToSwaggerPaths (r : Route) (c : ClassDesc) (P : PathsMap)
    (p m : String) :
    jsGet ((jsGet (addRouteToSwaggerPaths r c P) p).getD []) m =
      if r.path = p ∧ r.verb = m
      then some { operationId := r.method, tags := [c.name] }
      else jsGet ((jsGet P p).getD []) m := by
  unfold addRouteToSwaggerPaths
  rw [jsGet_jsSet]
  by_cases hp : r.path = p
  · rw [if_pos hp, Option.getD_some, jsGet_jsSet]
    by_cases hv : r.verb = m
    · rw [if_pos hv, if_pos ⟨hp, hv⟩]
    · rw [if_neg hv, if_neg (fun hc => hv hc.2), hp]
  · rw [if_neg hp, if_neg (fun hc => hp hc.1)]

theorem documented_of_not_bang (r : Route) (h : ¬((!r.documented) = true)) :
    r.documented = true := by
  cases hr : r.documented
  · rw [hr] at h; simp at h
  · rfl

theorem processRoute_populated (classes : List ClassDesc) (st : RouteState) (r : Route)
    (st' : RouteState) (p m : String) (op : Operation)
    (h : processRoute classes st r = some st')
    (hpop : jsGet ((jsGet st'.paths p).getD []) m = some op) :
    jsGet ((jsGet st.paths p).getD []) m = some op ∨
      (r.documented = true ∧ r.path = p ∧ r.verb = m) := by
  unfold processRoute at h
  split at h
  · cases h; exact Or.inl hpop
  case isFalse hdoc =>
    have hdoc' := documented_of_not_bang r hdoc
    split at h
    · exact absurd h (by simp)
    · split at h
      · cases h; exact Or.inl hpop
      · split at h
        · split at h
          · cases h
            rw [jsGet_addRouteToSwaggerPaths] at hpop
            by_cases hc : r.path = p ∧ r.verb = m
            · exact Or.inr ⟨hdoc', hc.1, hc.2⟩
            · rw [if_neg hc] at hpop; exact Or.inl hpop
          · cases h; exact Or.inl hpop
        · cases h
          rw [jsGet_addRouteToSwaggerPaths] at hpop
          by_cases hc : r.path = p ∧ r.verb = m
          · exact Or.inr ⟨hdoc', hc.1, hc.2⟩
          · rw [if_neg hc] at hpop; exact Or.inl hpop

theorem routesFold_populated (classes : List ClassDesc) (routes : List Route)
    (st st' : RouteState) (p m : String) (op : Operation)
    (h : routesFold classes routes st = some st')
    (hpop : jsGet ((jsGet st'.paths p).getD []) m = some op) :
    jsGet ((jsGet st.paths p).getD []) m = some op ∨
      ∃ r ∈ routes, r.documented = true ∧ r.path = p ∧ r.verb = m := by
  induction routes generalizing st with
  | nil =>
    unfold routesFold at h; cases h; exact Or.inl hpop
  | cons r rs ih =>
    unfold routesFold at h
    cases hp : processRoute classes st r with
    | none => rw [hp] at h; exact absurd h (by simp)
    | some st1 =>
      rw [hp] at h
      rcases ih st1 h with h1 | ⟨r', hr', hprop⟩
      · rcases processRoute_populated classes st r st1 p m op hp h1 with h2 | h2
        · exact Or.inl h2
        · exact Or.inr ⟨r, List.mem_cons_self r rs, h2⟩
      · exact Or.inr ⟨r', List.mem_cons_of_mem r hr', hprop⟩

/-- C3: a method slot of a path item in the returned document holds an
operation only if a documented route with that path template and HTTP method
existed in the input (slots for the other methods carry no operation, i.e.,
the JSON-invisible undefined value). -/
theorem populated_slot_has_matching_route (app : AppInput) (opts0 : Opts)
    (d : SwaggerDoc) (diags : List String)
    (h : createSwaggerObject app opts0 = some (d, diags))
    (p : String) (item : List (String × Option Operation)) (m : String) (op : Operation)
    (hitem : (p, item) ∈ d.paths) (hslot : (m, some op) ∈ item) :
    ∃ r ∈ app.routes, r.documented = true ∧ r.path = p ∧ r.verb = m := by
  obtain ⟨st, hfold, hd, -⟩ := (createSwaggerObject_eq_some_iff app opts0 d diags).mp h
  subst hd
  have hpaths : (finalizeSwaggerObject app opts0 st).paths = assembledPaths st.paths := rfl
  rw [hpaths] at hitem
  unfold assembledPaths at hitem
  obtain ⟨k, hk, heq⟩ := List.mem_map.mp hitem
  have hk1 : k = p := congrArg Prod.fst heq
  have hk2 : buildPathItem st.paths k = item := congrArg Prod.snd heq
  rw [← hk2] at hslot
  unfold buildPathItem at hslot
  obtain ⟨m', hm', heq'⟩ := List.mem_map.mp hslot
  have hm1 : m' = m := congrArg Prod.fst heq'
  have hm2 : jsGet ((jsGet st.paths k).getD []) m' = some op := congrArg Prod.snd heq'
  rcases routesFold_populated app.classes app.routes ⟨[], []⟩ st k m' op hfold hm2 with h0 | hr
  · simp [jsGet] at h0
  · rw [hk1, hm1] at hr
    exact hr

/-- The concrete route-fold state reached on the sample snapshot. -/
def sampleSt : RouteState :=
  ⟨[("/widgets/id", [("get", ⟨"widget.prototype.findById", ["widget"]⟩)]),
    ("/widgets", [("get", ⟨"widget.find", ["widget"]⟩)])], []⟩

/-- Witness for C3 at the sample snapshot. -/
theorem populated_slot_has_matching_route_witness :
    ∃ r ∈ sampleApp.routes, r.documented = true ∧ r.path = "/widgets" ∧ r.verb = "get" :=
  populated_slot_has_matching_route sampleApp sampleOpts
    (finalizeSwaggerObject sampleApp sampleOpts sampleSt) sampleSt.diags (by decide)
    "/widgets" (buildPathItem sampleSt.paths "/widgets") "get"
    ⟨"widget.find", ["widget"]⟩ (by decide) (by decide)

/-! ## Resolution of compound method identifiers -/

/-- C7: the compound method identifier `"widget.prototype.findById"` resolves
to owning class `"widget"` and method `"findById"`: the text before the first
dot is the class name, the remainder is the method name with the
`"prototype."` marker stripped (lines 95-96, as used by `processRoute`). -/
theorem compound_identifier_resolution :
    resolveClassMethod "widget.prototype.findById" = some ("widget", "findById") := by
  decide

/-! ## The per-class method allow-list -/

/-- C8: for a class whose `_swaggerMethods` allow-list contains only `"find"`,
a documented route of that class resolving to any other method name is dropped
(the state is unchanged, so it contributes no operation), while a route
resolving to `"find"` is still mapped into the path/method grid. -/
theorem swagger_methods_allow_list_filters (c : ClassDesc) (r : Route) (st : RouteState)
    (m : String)
    (hallow : c.swaggerMethods = some ["find"])
    (hdoc : r.documented = true)
    (hres : resolveClassMethod r.method = some (c.name, m)) :
    (m ≠ "find" → processRoute [c] st r = some st) ∧
    (m = "find" → processRoute [c] st r =
      some { st with paths := addRouteToSwaggerPaths r c st.paths }) := by
  constructor
  · intro hm
    simp [processRoute, hdoc, hres, hallow, List.find?, hm]
  · intro hm
    subst hm
    simp [processRoute, hdoc, hres, hallow, List.find?]

/-- A class allowing only `"find"`, and two routes of it, for the C8 witness. -/
def allowListClass : ClassDesc :=
  { name := "w", description := "", methods := [⟨"find", true⟩],
    swaggerMethods := some ["find"] }

def delRoute : Route :=
  { method := "w.del", verb := "delete", path := "/w", documented := true }

def findRoute : Route :=
  { method := "w.find", verb := "get", path := "/w", documented := true }

/-- Witness for C8: a route resolving to `"del"` is dropped, one resolving to
`"find"` is mapped. -/
theorem swagger_methods_allow_list_filters_witness :
    processRoute [allowListClass] ⟨[], []⟩ delRoute = some ⟨[], []⟩ ∧
    processRoute [allowListClass] ⟨[], []⟩ findRoute =
      some ⟨addRouteToSwaggerPaths findRoute allowListClass [], []⟩ :=
  ⟨(swagger_methods_allow_list_filters allowListClass delRoute ⟨[], []⟩ "del"
      (by decide) (by decide) (by decide)).1 (by decide),
   (swagger_methods_allow_list_filters allowListClass findRoute ⟨[], []⟩ "find"
      (by decide) (by decide) (by decide)).2 rfl⟩

/-! ## Default security requirements -/

/-- C9: when the caller supplies no `securitySchemes` option, the returned
document's `security` array has exactly two requirement entries, one per
default scheme (`accessToken` and `accessTokenParam`), each mapping its scheme
name to an empty scope list. -/
theorem default_security_two_requirements (app : AppInput) (opts0 : Opts)
    (d : SwaggerDoc) (diags : List String)
    (hns : opts0.securitySchemes = SchemesOpt.unset)
    (h : createSwaggerObject app opts0 = some (d, diags)) :
    d.security = SecurityField.fromSchemes [("accessToken", []), ("accessTokenParam", [])] := by
  obtain ⟨st, -, hd, -⟩ := (createSwaggerObject_eq_some_iff app opts0 d diags).mp h
  subst hd
  have hsec : (finalizeSwaggerObject app opts0 st).security =
      (generateSwaggerObjectBase (applyDefaults app opts0) app).security := rfl
  rw [hsec]
  have hds : (applyDefaults app opts0).securitySchemes = .given defaultSecuritySchemes := by
    unfold applyDefaults
    rw [hns]
  unfold generateSwaggerObjectBase
  rw [hds]
  rfl

/-- Witness for C9 at the sample snapshot (which supplies no schemes). -/
theorem default_security_two_requirements_witness :
    ∃ d diags, createSwaggerObject sampleApp sampleOpts = some (d, diags) ∧
      d.security = SecurityField.fromSchemes
        [("accessToken", []), ("accessTokenParam", [])] := by
  cases hrun : createSwaggerObject sampleApp sampleOpts with
  | none => exact absurd hrun (by decide)
  | some p =>
    obtain ⟨d, diags⟩ := p
    exact ⟨d, diags, rfl,
      default_security_two_requirements sampleApp sampleOpts d diags (by decide) hrun⟩

/-! ## Non-totality on undotted method identifiers -/

theorem parseClassMethod_eq_none_of_no_dot (s : String) (h : ('.') ∉ s.toList) :
    parseClassMethod s = none := by
  unfold parseClassMethod
  have hd : s.toList.dropWhile (fun c => c != '.') = [] := by
    rw [List.dropWhile_eq_nil_iff]
    intro x hx
    simp only [bne_iff_ne, ne_eq]
    intro hxe
    exact h (hxe ▸ hx)
  simp only [parseClassMethod, hd]

theorem processRoute_eq_none (classes : List ClassDesc) (st : RouteState) (r : Route)
    (hdoc : r.documented = true)
    (hres : resolveClassMethod r.method = none) :
    processRoute classes st r = none := by
  unfold processRoute
  rw [hdoc, hres]
  rfl

theorem routesFold_eq_none_of_mem (classes : List ClassDesc) (routes : List Route)
    (r : Route) (hmem : r ∈ routes)
    (hbad : ∀ st, processRoute classes st r = none) :
    ∀ st, routesFold classes routes st = none := by
  induction routes with
  | nil => cases hmem
  | cons r0 rs ih =>
    intro st
    rcases List.mem_cons.mp hmem with rfl | hmem'
    · unfold routesFold
      rw [hbad st]
    · unfold routesFold
      cases hp : processRoute classes st r0 with
      | none => rfl
      | some st1 => exact ih hmem' st1

/-- C10: a documented route whose compound method identifier contains no dot
makes the whole assembly throw (the regex match result is null and `.slice`
dereferences it), so no document is produced. -/
theorem undotted_method_identifier_throws (app : AppInput) (opts0 : Opts) (r : Route)
    (hmem : r ∈ app.routes) (hdoc : r.documented = true)
    (hnodot : ('.') ∉ r.method.toList) :
    createSwaggerObject app opts0 = none := by
  have hres : resolveClassMethod r.method = none := by
    unfold resolveClassMethod
    rw [parseClassMethod_eq_none_of_no_dot r.method hnodot]
    rfl
  unfold createSwaggerObject
  rw [routesFold_eq_none_of_mem app.classes app.routes r hmem
    (fun st => processRoute_eq_none app.classes st r hdoc hres)]

/-- Witness for C10: an application with the documented route `"findById"`. -/
theorem undotted_method_identifier_throws_witness :
    createSwaggerObject
      { restApiRoot := none, swaggerExtensions := [], pkgName := none,
        pkgDescription := none, pkgVersion := none,
        routes := [{ method := "findById", verb := "get", path := "/x", documented := true }],
        classes := [], models := [] } sampleOpts = none :=
  undotted_method_identifier_throws _ sampleOpts
    { method := "findById", verb := "get", path := "/x", documented := true }
    (by decide) (by decide) (by decide)

/-! ## Orphan routes: skipped with a diagnostic, assembly continues -/

theorem processRoute_diags_shift (classes : List ClassDesc) (P : PathsMap)
    (dgs : List String) (r : Route) :
    processRoute classes ⟨P, dgs⟩ r =
      (processRoute classes ⟨P, []⟩ r).map (fun st => ⟨st.paths, dgs ++ st.diags⟩) := by
  unfold processRoute
  split
  · simp
  · cases hres : resolveClassMethod r.method with
    | none => rfl
    | some pr =>
      obtain ⟨className, methodName⟩ := pr
      cases hfind : List.find? (fun c => c.name == className) classes with
      | none => simp [hfind]
      | some classDef =>
        cases hsm : classDef.swaggerMethods with
        | some allowed =>
          by_cases hc : methodName ∈ allowed
          · simp [hfind, hsm, hc]
          · simp [hfind, hsm, hc]
        | none => simp [hfind, hsm]

theorem routesFold_diags_shift (classes : List ClassDesc) (routes : List Route)
    (P : PathsMap) (dgs : List String) :
    routesFold classes routes ⟨P, dgs⟩ =
      (routesFold classes routes ⟨P, []⟩).map (fun st => ⟨st.paths, dgs ++ st.diags⟩) := by
  induction routes generalizing P dgs with
  | nil => simp [routesFold]
  | cons r rs ih =>
    unfold routesFold
    rw [processRoute_diags_shift]
    cases hp : processRoute classes ⟨P, []⟩ r with
    | none => rfl
    | some st0 =>
      obtain ⟨P0, D0⟩ := st0
      show routesFold classes rs ⟨P0, dgs ++ D0⟩ =
        Option.map (fun st => ⟨st.paths, dgs ++ st.diags⟩) (routesFold classes rs ⟨P0, D0⟩)
      rw [ih P0 (dgs ++ D0), ih P0 D0]
      cases routesFold classes rs ⟨P0, []⟩ with
      | none => rfl
      | some u => simp [List.append_assoc]

theorem routesFold_append (classes : List ClassDesc) (l1 l2 : List Route)
    (st : RouteState) :
    routesFold classes (l1 ++ l2) st =
      (routesFold classes l1 st).bind (fun st' => routesFold classes l2 st') := by
  induction l1 generalizing st with
  | nil => simp [routesFold]
  | cons r rs ih =>
    simp only [List.cons_append, routesFold]
    cases hp : processRoute classes st r with
    | none => simp
    | some st1 => simpa using ih st1

theorem processRoute_isSome (classes : List ClassDesc) (st : RouteState) (r : Route)
    (h : r.documented = true → (resolveClassMethod r.method).isSome) :
    (processRoute classes st r).isSome := by
  unfold processRoute
  split
  · simp
  case isFalse hdoc =>
    have hdoc' := documented_of_not_bang r hdoc
    cases hres : resolveClassMethod r.method with
    | none =>
      rw [hres] at h
      simp at h
      rw [hdoc'] at h
      exact absurd h (by simp)
    | some pr =>
      obtain ⟨className, methodName⟩ := pr
      cases hfind : List.find? (fun c => c.name == className) classes with
      | none => simp [hfind]
      | some classDef =>
        cases hsm : classDef.swaggerMethods with
        | some allowed =>
          by_cases hc : methodName ∈ allowed
          · simp [hfind, hsm, hc]
          · simp [hfind, hsm, hc]
        | none => simp [hfind, hsm]

theorem routesFold_isSome (classes : List ClassDesc) (routes : List Route)
    (st : RouteState)
    (h : ∀ r ∈ routes, r.documented = true → (resolveClassMethod r.method).isSome) :
    (routesFold classes routes st).isSome := by
  induction routes generalizing st with
  | nil => simp [routesFold]
  | cons r rs ih =>
    unfold routesFold
    cases hp : processRoute classes st r with
    | none =>
      have := processRoute_isSome classes st r (h r (List.mem_cons_self r rs))
      rw [hp] at this
      simp at this
    | some st1 =>
      exact ih st1 (fun r' hr' => h r' (List.mem_cons_of_mem r hr'))

theorem processRoute_orphan (classes : List ClassDesc) (st : RouteState) (r : Route)
    (cn mr : String)
    (hdoc : r.documented = true)
    (hparse : parseClassMethod r.method = some (cn, mr))
    (hnoclass : ∀ c ∈ classes, c.name ≠ cn) :
    processRoute classes st r = some ⟨st.paths, st.diags ++ [orphanDiag r]⟩ := by
  have hres : resolveClassMethod r.method = some (cn, stripPrototypeMarker mr) := by
    unfold resolveClassMethod
    rw [hparse]
    rfl
  have hfind : List.find? (fun c => c.name == cn) classes = none := by
    rw [List.find?_eq_none]
    intro c hc
    simp only [beq_iff_eq]
    exact hnoclass c hc
  unfold processRoute
  rw [hdoc, hres]
  simp only [Bool.not_true, Bool.false_eq_true, if_false]
  rw [hfind]

/-- C5: a documented route whose declared owning class matches no class is
skipped with a diagnostic, and assembly continues: provided every other
documented route parses, a document is still returned, it is the same document
that the input without the orphan route produces, and the orphan diagnostic is
reported. -/
theorem orphan_route_skipped_with_diagnostic (app : AppInput) (opts0 : Opts)
    (rs1 rs2 : List Route) (r0 : Route) (cn mr : String)
    (hroutes : app.routes = rs1 ++ r0 :: rs2)
    (hdoc : r0.documented = true)
    (hparse0 : parseClassMethod r0.method = some (cn, mr))
    (hnoclass : ∀ c ∈ app.classes, c.name ≠ cn)
    (hparseAll : ∀ r ∈ rs1 ++ rs2, r.documented = true →
      (resolveClassMethod r.method).isSome) :
    ∃ d diags diags',
      createSwaggerObject app opts0 = some (d, diags) ∧
      orphanDiag r0 ∈ diags ∧
      createSwaggerObject { app with routes := rs1 ++ rs2 } opts0 = some (d, diags') := by
  have hparse1 : ∀ r ∈ rs1, r.documented = true → (resolveClassMethod r.method).isSome :=
    fun r hr => hparseAll r (List.mem_append_left rs2 hr)
  have hparse2 : ∀ r ∈ rs2, r.documented = true → (resolveClassMethod r.method).isSome :=
    fun r hr => hparseAll r (List.mem_append_right rs1 hr)
  obtain ⟨st1, hst1⟩ := Option.isSome_iff_exists.mp
    (routesFold_isSome app.classes rs1 ⟨[], []⟩ hparse1)
  obtain ⟨u, hu⟩ := Option.isSome_iff_exists.mp
    (routesFold_isSome app.classes rs2 ⟨st1.paths, []⟩ hparse2)
  -- the run with the orphan route
  have hfold1 : routesFold app.classes app.routes ⟨[], []⟩ =
      some ⟨u.paths, st1.diags ++ [orphanDiag r0] ++ u.diags⟩ := by
    rw [hroutes, routesFold_append, hst1]
    show routesFold app.classes (r0 :: rs2) st1 = _
    unfold routesFold
    rw [processRoute_orphan app.classes st1 r0 cn mr hdoc hparse0 hnoclass]
    show routesFold app.classes rs2 ⟨st1.paths, st1.diags ++ [orphanDiag r0]⟩ = _
    rw [routesFold_diags_shift, hu]
    rfl
  -- the run without the orphan route
  have hfold2 : routesFold app.classes (rs1 ++ rs2) ⟨[], []⟩ =
      some ⟨u.paths, st1.diags ++ u.diags⟩ := by
    rw [routesFold_append, hst1]
    show routesFold app.classes rs2 st1 = _
    have : st1 = ⟨st1.paths, st1.diags⟩ := rfl
    rw [this, routesFold_diags_shift, hu]
    rfl
  refine ⟨finalizeSwaggerObject app opts0 ⟨u.paths, st1.diags ++ [orphanDiag r0] ++ u.diags⟩,
    st1.diags ++ [orphanDiag r0] ++ u.diags, st1.diags ++ u.diags, ?_, ?_, ?_⟩
  · unfold createSwaggerObject
    rw [hfold1]
  · simp
  · unfold createSwaggerObject
    show (match routesFold app.classes (rs1 ++ rs2) ⟨[], []⟩ with
      | none => none
      | some st => some (finalizeSwaggerObject { app with routes := rs1 ++ rs2 } opts0 st,
          st.diags)) = _
    rw [hfold2]
    rfl

/-- Routes for the C5 witness: two valid ones and an orphan between them. -/
def wFindRoute : Route :=
  { method := "widget.find", verb := "get", path := "/widgets", documented := true }

def wFindByIdRoute : Route :=
  { method := "widget.prototype.findById", verb := "get", path := "/widgets/id",
    documented := true }

def orphanRoute : Route :=
  { method := "nosuch.find", verb := "get", path := "/nos", documented := true }

/-- An application with an orphan route between two valid ones. -/
def orphanApp : AppInput :=
  { sampleApp with routes := [wFindRoute, orphanRoute, wFindByIdRoute] }

/-- Witness for C5: the orphan route `nosuch.find` is skipped with a
diagnostic and the document equals the one for the input without it. -/
theorem orphan_route_skipped_with_diagnostic_witness :
    ∃ d diags diags',
      createSwaggerObject orphanApp sampleOpts = some (d, diags) ∧
      orphanDiag orphanRoute ∈ diags ∧
      createSwaggerObject
        { orphanApp with routes := [wFindRoute] ++ [wFindByIdRoute] } sampleOpts =
        some (d, diags') :=
  orphan_route_skipped_with_diagnostic orphanApp sampleOpts
    [wFindRoute] [wFindByIdRoute] orphanRoute "nosuch" "find"
    (by decide) (by decide) (by decide) (by decide) (by decide)

/-! ## The final tag list -/

theorem mem_addTags (l acc : List String) (x : String) :
    x ∈ addTags l acc ↔ x ∈ l ∨ x ∈ acc := by
  induction l generalizing acc with
  | nil => simp [addTags]
  | cons n t ih =>
    unfold addTags
    by_cases hc : acc.contains n
    · rw [if_pos hc, ih]
      have hn : n ∈ acc := by simpa using hc
      constructor
      · rintro (h | h)
        · exact Or.inl (List.mem_cons_of_mem n h)
        · exact Or.inr h
      · rintro (h | h)
        · rcases List.mem_cons.mp h with rfl | h'
          · exact Or.inr hn
          · exact Or.inl h'
        · exact Or.inr h
    · rw [if_neg hc, ih]
      simp only [List.mem_append, List.mem_singleton, List.mem_cons]
      tauto

theorem mem_collectItemTags (item : List (String × Option Operation)) (acc : List String)
    (x : String) :
    x ∈ collectItemTags item acc ↔
      x ∈ acc ∨ ∃ m op, (m, some op) ∈ item ∧ x ∈ op.tags := by
  induction item generalizing acc with
  | nil => simp [collectItemTags]
  | cons hd t ih =>
    obtain ⟨m0, op0?⟩ := hd
    cases op0? with
    | none =>
      rw [show collectItemTags ((m0, none) :: t) acc = collectItemTags t acc from rfl, ih]
      constructor
      · rintro (h | ⟨m, op, hmem, hx⟩)
        · exact Or.inl h
        · exact Or.inr ⟨m, op, List.mem_cons_of_mem _ hmem, hx⟩
      · rintro (h | ⟨m, op, hmem, hx⟩)
        · exact Or.inl h
        · rcases List.mem_cons.mp hmem with heq | h'
          · cases heq
          · exact Or.inr ⟨m, op, h', hx⟩
    | some op0 =>
      rw [show collectItemTags ((m0, some op0) :: t) acc
            = collectItemTags t (addTags op0.tags acc) from rfl, ih]
      rw [mem_addTags]
      constructor
      · rintro ((h | h) | ⟨m, op, hmem, hx⟩)
        · exact Or.inr ⟨m0, op0, List.mem_cons_self _ _, h⟩
        · exact Or.inl h
        · exact Or.inr ⟨m, op, List.mem_cons_of_mem _ hmem, hx⟩
      · rintro (h | ⟨m, op, hmem, hx⟩)
        · exact Or.inl (Or.inr h)
        · rcases List.mem_cons.mp hmem with heq | h'
          · obtain ⟨-, h2⟩ := Prod.mk.injEq .. ▸ heq
            cases h2
            exact Or.inl (Or.inl hx)
          · exact Or.inr ⟨m, op, h', hx⟩

theorem mem_usedTagNamesAux (l : List (String × List (String × Option Operation)))
    (acc : List String) (x : String) :
    x ∈ usedTagNamesAux l acc ↔
      x ∈ acc ∨ ∃ p item, (p, item) ∈ l ∧ ∃ m op, (m, some op) ∈ item ∧ x ∈ op.tags := by
  induction l generalizing acc with
  | nil => simp [usedTagNamesAux]
  | cons hd t ih =>
    obtain ⟨p0, item0⟩ := hd
    rw [show usedTagNamesAux ((p0, item0) :: t) acc
          = usedTagNamesAux t (collectItemTags item0 acc) from rfl, ih]
    rw [mem_collectItemTags]
    constructor
    · rintro ((h | ⟨m, op, hmem, hx⟩) | ⟨p, item, hpi, hrest⟩)
      · exact Or.inl h
      · exact Or.inr ⟨p0, item0, List.mem_cons_self _ _, m, op, hmem, hx⟩
      · exact Or.inr ⟨p, item, List.mem_cons_of_mem _ hpi, hrest⟩
    · rintro (h | ⟨p, item, hpi, hrest⟩)
      · exact Or.inl (Or.inl h)
      · rcases List.mem_cons.mp hpi with heq | h'
        · obtain ⟨-, h2⟩ := Prod.mk.injEq .. ▸ heq
          obtain ⟨m, op, hmem, hx⟩ := hrest
          exact Or.inl (Or.inr ⟨m, op, h2 ▸ hmem, hx⟩)
        · exact Or.inr ⟨p, item, h', hrest⟩

theorem mem_usedTagNames (l : List (String × List (String × Option Operation)))
    (x : String) :
    x ∈ usedTagNames l ↔
      ∃ p item, (p, item) ∈ l ∧ ∃ m op, (m, some op) ∈ item ∧ x ∈ op.tags := by
  rw [usedTagNames, mem_usedTagNamesAux]
  simp

theorem sortTags_perm (l : List Tag) : (sortTags l).Perm l :=
  List.perm_insertionSort _ l

theorem sortTags_sorted (l : List Tag) :
    List.Pairwise (fun a b => a.name ≤ b.name) (sortTags l) :=
  (List.sorted_insertionSort _ l).imp (fun hab => (keyLe_iff_le _ _).mp hab)

theorem count_name_filter (cands : List Tag) (n : String) (P : Tag → Bool)
    (hP : ∀ t, t.name = n → P t = true) :
    ((cands.filter P).map Tag.name).count n = (cands.map Tag.name).count n := by
  induction cands with
  | nil => simp
  | cons t ts ih =>
    by_cases hn : t.name = n
    · rw [List.filter_cons, if_pos (hP t hn)]
      simp only [List.map_cons, List.count_cons, ih]
    · by_cases hPt : P t = true
      · rw [List.filter_cons, if_pos hPt]
        simp only [List.map_cons, List.count_cons, ih]
      · rw [List.filter_cons, if_neg (by simp [hPt])]
        simp only [List.map_cons, List.count_cons, ih]
        have : ¬(t.name == n) = true := by simpa using hn
        simp [this]

/-- C1 (amended): every tag emitted in the final document is referenced by
some emitted operation, the surviving tags are sorted ascending by name, and —
provided the candidate tag names are pairwise distinct — every tag name that
is both used by an emitted operation and names a tag candidate appears exactly
once in the final list. (As literally stated the claim fails: a used name with
no candidate appears zero times, and duplicate class names yield duplicate
surviving tags, see the counterexample.) -/
theorem final_tags_used_and_sorted (app : AppInput) (opts0 : Opts)
    (d : SwaggerDoc) (diags : List String)
    (h : createSwaggerObject app opts0 = some (d, diags)) :
    (∀ t ∈ d.tags, ∃ p item, (p, item) ∈ d.paths ∧
      ∃ m op, (m, some op) ∈ item ∧ t.name ∈ op.tags) ∧
    (((tagCandidates app.classes).map Tag.name).Nodup →
      ∀ n, n ∈ usedTagNames d.paths → n ∈ (tagCandidates app.classes).map Tag.name →
        (d.tags.map Tag.name).count n = 1) ∧
    List.Pairwise (fun a b => a.name ≤ b.name) d.tags := by
  obtain ⟨st, hfold, hd, -⟩ := (createSwaggerObject_eq_some_iff app opts0 d diags).mp h
  subst hd
  have htags : (finalizeSwaggerObject app opts0 st).tags =
      sortTags ((tagCandidates app.classes).filter
        (fun t => (usedTagNames (assembledPaths st.paths)).contains t.name)) := rfl
  have hpaths : (finalizeSwaggerObject app opts0 st).paths = assembledPaths st.paths := rfl
  refine ⟨?_, ?_, ?_⟩
  · intro t ht
    rw [htags] at ht
    have ht' := (sortTags_perm _).mem_iff.mp ht
    have hused : t.name ∈ usedTagNames (assembledPaths st.paths) := by
      have := List.of_mem_filter ht'
      simpa using this
    rw [hpaths]
    exact (mem_usedTagNames _ _).mp hused
  · intro hnd n hn hmem
    rw [hpaths] at hn
    rw [htags]
    have hperm : (sortTags ((tagCandidates app.classes).filter
        (fun t => (usedTagNames (assembledPaths st.paths)).contains t.name))).Perm
        ((tagCandidates app.classes).filter
          (fun t => (usedTagNames (assembledPaths st.paths)).contains t.name)) :=
      sortTags_perm _
    rw [(hperm.map Tag.name).count_eq]
    rw [count_name_filter _ _ _ (fun t htn => by
      simp only [List.contains_eq_any_beq, List.any_eq_true]
      exact ⟨n, hn, by simp [htn]⟩)]
    exact List.count_eq_one_of_mem hnd hmem
  · rw [htags]
    exact sortTags_sorted _

/-- An application where two classes share the name `"w"` and the class
`"v"` has no documented method, while documented routes reference both. -/
def dupTagApp : AppInput :=
  { restApiRoot := none, swaggerExtensions := [], pkgName := none,
    pkgDescription := none, pkgVersion := none,
    routes := [
      { method := "w.find", verb := "get", path := "/w", documented := true },
      { method := "v.go", verb := "get", path := "/v", documented := true }],
    classes := [
      { name := "w", description := "a", methods := [⟨"find", true⟩], swaggerMethods := none },
      { name := "w", description := "b", methods := [⟨"find", true⟩], swaggerMethods := none },
      { name := "v", description := "c", methods := [⟨"x", false⟩], swaggerMethods := none }],
    models := [] }

/-- Counterexample to C1 as stated: on `dupTagApp` the tag name `"v"` is used
by an emitted operation but appears zero times in the final tag list, while
`"w"` appears twice. -/
theorem final_tags_used_exactly_once_counterexample :
    (createSwaggerObject dupTagApp sampleOpts).map
      (fun x => (usedTagNames x.1.paths, x.1.tags.map Tag.name)) =
      some (["v", "w"], ["w", "w"]) := by
  decide

/-- Witness for C1 (amended) at the sample snapshot. -/
theorem final_tags_used_and_sorted_witness :
    ∃ d diags, createSwaggerObject sampleApp sampleOpts = some (d, diags) ∧
      (∀ t ∈ d.tags, ∃ p item, (p, item) ∈ d.paths ∧
        ∃ m op, (m, some op) ∈ item ∧ t.name ∈ op.tags) ∧
      (((tagCandidates sampleApp.classes).map Tag.name).Nodup →
        ∀ n, n ∈ usedTagNames d.paths →
          n ∈ (tagCandidates sampleApp.classes).map Tag.name →
          (d.tags.map Tag.name).count n = 1) ∧
      List.Pairwise (fun a b => a.name ≤ b.name) d.tags := by
  cases hrun : createSwaggerObject sampleApp sampleOpts with
  | none => exact absurd hrun (by decide)
  | some p =>
    obtain ⟨d, diags⟩ := p
    exact ⟨d, diags, rfl, final_tags_used_and_sorted sampleApp sampleOpts d diags hrun⟩

/-! ## Determinism and iteration order -/

theorem foldl_register_fresh (ms : List ModelDesc) :
    ∀ reg : List (String × String),
      (∀ m ∈ ms, m.name ∉ reg.map Prod.fst) →
      ((ms.map ModelDesc.name).Nodup) →
      ms.foldl registerModelDefinition reg =
        reg ++ ms.map (fun m => (m.name, m.definition)) := by
  induction ms with
  | nil => intro reg _ _; simp
  | cons m t ih =>
    intro reg hfresh hnd
    rw [List.foldl_cons]
    have hg : jsGet reg m.name = none :=
      (jsGet_eq_none_iff reg m.name).mpr (hfresh m (List.mem_cons_self m t))
    have hr : registerModelDefinition reg m = reg ++ [(m.name, m.definition)] := by
      unfold registerModelDefinition
      rw [hg]
    rw [hr]
    rw [ih (reg ++ [(m.name, m.definition)]) ?_ (List.Nodup.of_cons (by simpa using hnd))]
    · simp [List.append_assoc]
    · intro m' hm'
      rw [List.map_append]
      simp only [List.mem_append, List.map_cons, List.map_nil, List.mem_singleton]
      rintro (h | h)
      · exact hfresh m' (List.mem_cons_of_mem m hm') h
      · have hmn : m'.name ∈ t.map ModelDesc.name := List.mem_map_of_mem ModelDesc.name hm'
        simp only [List.map_cons, List.nodup_cons] at hnd
        exact hnd.1 (h ▸ hmn)

theorem registerModels_eq_map (ms : List ModelDesc)
    (hnd : (ms.map ModelDesc.name).Nodup) :
    registerModels ms = ms.map (fun m => (m.name, m.definition)) := by
  unfold registerModels
  rw [foldl_register_fresh ms [] (by simp) hnd]
  simp

theorem jsGet_eq_of_perm {α : Type} (l l' : List (String × α)) (hperm : l.Perm l')
    (hnd : (l.map Prod.fst).Nodup) (k : String) : jsGet l k = jsGet l' k := by
  have hnd' : (l'.map Prod.fst).Nodup := ((hperm.map Prod.fst).nodup_iff).mp hnd
  cases hg : jsGet l k with
  | none =>
    have h1 : k ∉ l.map Prod.fst := (jsGet_eq_none_iff l k).mp hg
    have h2 : k ∉ l'.map Prod.fst := fun hk => h1 ((hperm.map Prod.fst).mem_iff.mpr hk)
    exact ((jsGet_eq_none_iff l' k).mpr h2).symm
  | some v =>
    have hmem : (k, v) ∈ l := mem_of_jsGet_eq_some l k v hg
    have hmem' : (k, v) ∈ l' := hperm.mem_iff.mp hmem
    exact (jsGet_eq_some_of_mem l' k v hmem' hnd').symm

theorem sortedSchemaPairs_eq_of_perm (reg reg' : List (String × String))
    (hperm : reg.Perm reg') (hnd : (reg.map Prod.fst).Nodup) :
    sortedSchemaPairs reg = sortedSchemaPairs reg' := by
  unfold sortedSchemaPairs
  rw [sortStrings_eq_of_perm _ _ (hperm.map Prod.fst)]
  apply List.map_congr_left
  intro k _
  rw [jsGet_eq_of_perm reg reg' hperm hnd k]

/-- C4 (amended): running the assembly twice over an unchanged snapshot yields
identical output (the assembly is a pure function of the snapshot), and the
output is further independent of the iteration order of the models whenever
the model names are pairwise distinct. It is not independent of the iteration
order of the classes (or of routes sharing a path+method pair), see the
counterexample. -/
theorem assembly_deterministic_and_model_order_independent (app : AppInput)
    (opts0 : Opts) (models' : List ModelDesc)
    (hperm : app.models.Perm models')
    (hnd : (app.models.map ModelDesc.name).Nodup) :
    createSwaggerObject app opts0 = createSwaggerObject app opts0 ∧
    createSwaggerObject { app with models := models' } opts0 =
      createSwaggerObject app opts0 := by
  refine ⟨rfl, ?_⟩
  have hnd' : (models'.map ModelDesc.name).Nodup := ((hperm.map ModelDesc.name).nodup_iff).mp hnd
  have hsch : sortedSchemaPairs (registerModels models') =
      sortedSchemaPairs (registerModels app.models) := by
    rw [registerModels_eq_map models' hnd', registerModels_eq_map app.models hnd]
    refine sortedSchemaPairs_eq_of_perm _ _ ((hperm.map _).symm) ?_
    rw [List.map_map]
    exact hnd'
  have hcl : ({ app with models := models' } : AppInput).classes = app.classes := rfl
  have hrt : ({ app with models := models' } : AppInput).routes = app.routes := rfl
  unfold createSwaggerObject
  rw [hcl, hrt]
  cases hfold : routesFold app.classes app.routes ⟨[], []⟩ with
  | none => rfl
  | some st =>
    have hfin : finalizeSwaggerObject { app with models := models' } opts0 st =
        finalizeSwaggerObject app opts0 st := by
      unfold finalizeSwaggerObject
      have hm : ({ app with models := models' } : AppInput).models = models' := rfl
      rw [hm, hsch]
      rfl
    show some (finalizeSwaggerObject { app with models := models' } opts0 st, st.diags) =
      some (finalizeSwaggerObject app opts0 st, st.diags)
    rw [hfin]

/-- Two applications that differ only in the iteration order of `classes`:
two classes share the name `"w"`, one restricting methods to `find`, the
other unrestricted; the route `w.del` resolves against whichever comes
first. -/
def orderAppA : AppInput :=
  { restApiRoot := none, swaggerExtensions := [], pkgName := none,
    pkgDescription := none, pkgVersion := none,
    routes := [{ method := "w.del", verb := "delete", path := "/w", documented := true }],
    classes := [
      { name := "w", description := "a", methods := [⟨"find", true⟩],
        swaggerMethods := some ["find"] },
      { name := "w", description := "b", methods := [⟨"find", true⟩],
        swaggerMethods := none }],
    models := [] }

def orderAppB : AppInput := { orderAppA with classes := orderAppA.classes.reverse }

/-- Counterexample to C4 as stated: permuting the classes list changes the
output document (the path `/w` is emitted in one order and not the other). -/
theorem order_independence_counterexample :
    orderAppB.classes.Perm orderAppA.classes ∧
    orderAppB.routes = orderAppA.routes ∧
    orderAppB.models = orderAppA.models ∧
    (createSwaggerObject orderAppA sampleOpts).map
      (fun x => x.1.paths.map Prod.fst) = some [] ∧
    (createSwaggerObject orderAppB sampleOpts).map
      (fun x => x.1.paths.map Prod.fst) = some ["/w"] ∧
    createSwaggerObject orderAppA sampleOpts ≠ createSwaggerObject orderAppB sampleOpts := by
  refine ⟨by decide, by decide, by decide, by decide, by decide, by decide⟩

/-- Witness for C4 (amended): permuting the two models of the sample snapshot
leaves the output unchanged. -/
theorem assembly_deterministic_witness :
    createSwaggerObject sampleApp sampleOpts = createSwaggerObject sampleApp sampleOpts ∧
    createSwaggerObject { sampleApp with models := [⟨"A", "adef"⟩, ⟨"B", "bdef"⟩] }
        sampleOpts = createSwaggerObject sampleApp sampleOpts :=
  assembly_deterministic_and_model_order_independent sampleApp sampleOpts
    [⟨"A", "adef"⟩, ⟨"B", "bdef"⟩] (by decide) (by decide)

/-! ## The document-level extension object -/

/-- C6 (amended): a key/value pair of the caller-supplied extension object
appears verbatim in the returned document unless its key coincides with a core
field the base document already defines. In detail: a pair whose key is none
of `openapi`, `info`, `servers`, `paths`, `tags`, `components`, `security`,
`host` is carried unchanged into the document's remainder (first conjunct, an
iff); a `host`-keyed pair supplies the document's `host` field verbatim
(second conjunct, `_.defaults` reaches it before the `{host: opts.host}`
fallback); a `security`-keyed pair supplies the `security` field verbatim
when the caller set `securitySchemes` to null, leaving the slot undefined
(third conjunct); and when security schemes are configured the computed
`security` wins (fourth conjunct), as the computed values of the other six
always-defined core fields do, so pairs keyed by a defined core field are
dropped. (As literally stated the claim fails for those colliding keys, see
the counterexample.) -/
theorem extensions_outside_core_fields_verbatim (app : AppInput) (opts0 : Opts)
    (d : SwaggerDoc) (diags : List String)
    (h : createSwaggerObject app opts0 = some (d, diags)) :
    (∀ k v, (k, v) ∈ d.extra ↔ ((k, v) ∈ app.swaggerExtensions ∧ k ∉ swaggerBaseKeys)) ∧
    (∀ v, jsGet app.swaggerExtensions "host" = some v → d.host = some v) ∧
    (∀ v, opts0.securitySchemes = SchemesOpt.nullv →
      jsGet app.swaggerExtensions "security" = some v →
      d.security = SecurityField.fromExtension v) ∧
    (∀ l, (applyDefaults app opts0).securitySchemes = SchemesOpt.given l →
      d.security = SecurityField.fromSchemes (l.map (fun p => (p.1, [])))) := by
  obtain ⟨st, -, hd, -⟩ := (createSwaggerObject_eq_some_iff app opts0 d diags).mp h
  subst hd
  refine ⟨?_, ?_, ?_, ?_⟩
  · intro k v
    have hx : (finalizeSwaggerObject app opts0 st).extra =
        app.swaggerExtensions.filter (fun p => !(swaggerBaseKeys.contains p.1)) := rfl
    rw [hx, List.mem_filter]
    simp
  · intro v hv
    have hh : (finalizeSwaggerObject app opts0 st).host =
        (match jsGet app.swaggerExtensions "host" with
          | some h0 => some h0
          | none => (applyDefaults app opts0).host) := rfl
    rw [hh, hv]
  · intro v hns hv
    have hds : (applyDefaults app opts0).securitySchemes = SchemesOpt.nullv := by
      unfold applyDefaults
      rw [hns]
    have hsec : (finalizeSwaggerObject app opts0 st).security =
        (generateSwaggerObjectBase (applyDefaults app opts0) app).security := rfl
    rw [hsec]
    unfold generateSwaggerObjectBase
    rw [hds]
    show (match jsGet app.swaggerExtensions "security" with
      | some v0 => SecurityField.fromExtension v0
      | none => SecurityField.absent) = SecurityField.fromExtension v
    rw [hv]
  · intro l hl
    have hsec : (finalizeSwaggerObject app opts0 st).security =
        (generateSwaggerObjectBase (applyDefaults app opts0) app).security := rfl
    rw [hsec]
    unfold generateSwaggerObjectBase
    rw [hl]

/-- An application whose extension object collides with a core field. -/
def extApp : AppInput :=
  { restApiRoot := none, swaggerExtensions := [("openapi", "9.9")], pkgName := none,
    pkgDescription := none, pkgVersion := none,
    routes := [], classes := [], models := [] }

/-- Counterexample to C6 as stated: the extension pair `("openapi", "9.9")`
does not appear in the returned document — the computed `openapi` value wins
and the pair is dropped from the merge remainder. -/
theorem extension_core_key_dropped_counterexample :
    ("openapi", "9.9") ∈ extApp.swaggerExtensions ∧
    (createSwaggerObject extApp sampleOpts).map (fun x => (x.1.openapi, x.1.extra)) =
      some ("3.0.1", []) := by
  refine ⟨by decide, by decide⟩

/-- Options with `securitySchemes` explicitly null, and an application whose
extension object carries a non-colliding pair plus `host` and `security`
pairs, for the C6 witness. -/
def extNullOpts : Opts := { sampleOpts with securitySchemes := .nullv }

def extNullApp : AppInput :=
  { restApiRoot := none,
    swaggerExtensions := [("x-custom", "yes"), ("host", "h.example"), ("security", "extsec")],
    pkgName := none, pkgDescription := none, pkgVersion := none,
    routes := [], classes := [], models := [] }

/-- Witness for C6 (amended): the non-colliding pair survives in the
remainder, the `host` pair supplies the host field verbatim, and with null
security schemes the `security` pair supplies the security field verbatim. -/
theorem extensions_outside_core_fields_verbatim_witness :
    ∃ d diags, createSwaggerObject extNullApp extNullOpts = some (d, diags) ∧
      ("x-custom", "yes") ∈ d.extra ∧
      d.host = some "h.example" ∧
      d.security = SecurityField.fromExtension "extsec" := by
  cases hrun : createSwaggerObject extNullApp extNullOpts with
  | none => exact absurd hrun (by decide)
  | some p =>
    obtain ⟨d, diags⟩ := p
    obtain ⟨h1, h2, h3, -⟩ :=
      extensions_outside_core_fields_verbatim extNullApp extNullOpts d diags hrun
    exact ⟨d, diags, rfl,
      (h1 "x-custom" "yes").mpr ⟨by decide, by decide⟩,
      h2 "h.example" (by decide),
      h3 "extsec" (by decide) (by decide)⟩

end LoopbackSwagger
